import Mathlib

/-!
Verification of the match-time core of a multi-pattern regular-expression
matching engine: the cautious fixed-width loader, Rose depth-bound
arithmetic, pure-repeat bound recognition, and the public status codes.
Machine integers are modelled as naturals with explicit reduction modulo
2 ^ 32 where u32 overflow matters, and fixed-width load results as naturals
assembled little-endian from their bytes.
-/

namespace Hyperscan

/-- A list of bytes assembled into a single value, little-endian: byte `k` of
the value holds the entry at index `k`, reduced to a byte. This models the
fixed-width integer values returned by the loadval family, which the unit
tests observe bytewise through a union. -/
def bytesToVal : List Nat → Nat
  | [] => 0
  | b :: bs => b % 256 + 256 * bytesToVal bs

/-- Byte `k` of a value, in the little-endian order of `bytesToVal`. -/
def byteOf (v k : Nat) : Nat := v / 256 ^ k % 256

/-- Modelled from the spec: the loadval implementation (fdr/fdr_loadval.h) is
not among the sources, only its unit tests. The normal load of width `W` at
`ptr` requires `[ptr, ptr + W)` to lie inside the valid range and returns the
`W` source bytes unchanged; the range bounds are not consulted by the read
itself. Memory is a function from addresses to bytes. -/
def lv (W : Nat) (mem : Nat → Nat) (ptr _lo _hi : Nat) : Nat :=
  bytesToVal ((List.range W).map fun k => mem (ptr + k))

/-- Modelled from the spec: cautious-forward load (fdr/fdr_loadval.h is not
among the sources). Bytes at or beyond `hi` read as zero; bytes before `ptr`
are not read, since only addresses `ptr + k` for `k < W` are consulted. -/
def lv_cf (W : Nat) (mem : Nat → Nat) (ptr _lo hi : Nat) : Nat :=
  bytesToVal ((List.range W).map fun k =>
    if ptr + k < hi then mem (ptr + k) else 0)

/-- Modelled from the spec: cautious-backward load (fdr/fdr_loadval.h is not
among the sources). Bytes before `lo` read as zero. -/
def lv_cb (W : Nat) (mem : Nat → Nat) (ptr lo _hi : Nat) : Nat :=
  bytesToVal ((List.range W).map fun k =>
    if lo ≤ ptr + k then mem (ptr + k) else 0)

/-- Modelled from the spec: cautious-everywhere load (fdr/fdr_loadval.h is not
among the sources). Any byte position outside `[lo, hi)` reads as zero,
including the degenerate case `lo > hi`, where every byte is zero. -/
def lv_ce (W : Nat) (mem : Nat → Nat) (ptr lo hi : Nat) : Nat :=
  bytesToVal ((List.range W).map fun k =>
    if lo ≤ ptr + k ∧ ptr + k < hi then mem (ptr + k) else 0)

/-- The one-byte normal load, `lv_u8` in the sources. -/
def lv_u8 (mem : Nat → Nat) (ptr lo hi : Nat) : Nat :=
  lv 1 mem ptr lo hi

/-- The one-byte aligned load: the sources define it as a direct proxy to the
normal one-byte load (fdr_loadval.cpp, `lv_u8_a`). -/
def lv_u8_a (mem : Nat → Nat) (ptr lo hi : Nat) : Nat :=
  lv_u8 mem ptr lo hi

/-- Byte extraction inverts little-endian assembly: byte `k` of
`bytesToVal l` is entry `k` of `l`, reduced to a byte. -/
theorem byteOf_bytesToVal (l : List Nat) (k : Nat) (hk : k < l.length) :
    byteOf (bytesToVal l) k = l[k] % 256 := by
  induction l generalizing k with
  | nil => simp at hk
  | cons b bs ih =>
    cases k with
    | zero =>
      simp only [byteOf, bytesToVal, pow_zero, Nat.div_one, List.getElem_cons_zero]
      omega
    | succ k =>
      have hk' : k < bs.length := by simpa using hk
      have h2 : (b % 256 + 256 * bytesToVal bs) / 256 = bytesToVal bs := by
        rw [Nat.add_mul_div_left _ _ (by norm_num : (0 : Nat) < 256)]
        omega
      calc byteOf (bytesToVal (b :: bs)) (k + 1)
          = (b % 256 + 256 * bytesToVal bs) / 256 / 256 ^ k % 256 := by
            simp only [byteOf, bytesToVal, pow_succ]
            rw [mul_comm (256 ^ k) 256, ← Nat.div_div_eq_div_mul]
        _ = bytesToVal bs / 256 ^ k % 256 := by rw [h2]
        _ = bs[k] % 256 := ih k hk'
        _ = (b :: bs)[k + 1] % 256 := by simp

/-- Claim C1: for every supported width W and all lo, hi, ptr, byte k of the
cautious-everywhere load equals the source byte at ptr + k when ptr + k lies
inside [lo, hi) and zero when it lies outside; in the degenerate case lo > hi
every byte of the result is zero. -/
theorem lv_ce_zero_fill (W : Nat)
    (hW : W = 1 ∨ W = 2 ∨ W = 4 ∨ W = 8 ∨ W = 16)
    (mem : Nat → Nat) (hmem : ∀ a, mem a < 256) (ptr lo hi k : Nat)
    (hk : k < W) :
    (lo ≤ ptr + k ∧ ptr + k < hi →
      byteOf (lv_ce W mem ptr lo hi) k = mem (ptr + k))
    ∧ (¬ (lo ≤ ptr + k ∧ ptr + k < hi) →
      byteOf (lv_ce W mem ptr lo hi) k = 0)
    ∧ (hi < lo → byteOf (lv_ce W mem ptr lo hi) k = 0) := by
  have hlen : k < ((List.range W).map fun k =>
      if lo ≤ ptr + k ∧ ptr + k < hi then mem (ptr + k) else 0).length := by
    simpa using hk
  have hbyte : byteOf (lv_ce W mem ptr lo hi) k
      = (if lo ≤ ptr + k ∧ ptr + k < hi then mem (ptr + k) else 0) % 256 := by
    simp only [lv_ce]
    rw [byteOf_bytesToVal _ _ hlen]
    simp
  refine ⟨fun h => ?_, fun h => ?_, fun h => ?_⟩
  · rw [hbyte, if_pos h]
    exact Nat.mod_eq_of_lt (hmem _)
  · rw [hbyte, if_neg h]
  · rw [hbyte, if_neg (by omega)]

/-- Claim C1 witness: the cautious-everywhere theorem applied at W = 4,
ptr = 2, valid range [3, 5): byte 1 (address 3, inside) reads the source
byte, byte 3 (address 5, outside) reads zero, and with the degenerate range
[9, 7) byte 0 reads zero. -/
theorem lv_ce_zero_fill_witness :
    byteOf (lv_ce 4 (fun a => a % 256) 2 3 5) 1 = 3
    ∧ byteOf (lv_ce 4 (fun a => a % 256) 2 3 5) 3 = 0
    ∧ byteOf (lv_ce 4 (fun a => a % 256) 2 9 7) 0 = 0 := by
  have hmem : ∀ a, a % 256 < 256 := fun a => Nat.mod_lt a (by norm_num)
  have h1 := lv_ce_zero_fill 4 (by norm_num) (fun a => a % 256) hmem 2 3 5 1
    (by norm_num)
  have h2 := lv_ce_zero_fill 4 (by norm_num) (fun a => a % 256) hmem 2 3 5 3
    (by norm_num)
  have h3 := lv_ce_zero_fill 4 (by norm_num) (fun a => a % 256) hmem 2 9 7 0
    (by norm_num)
  refine ⟨?_, ?_, ?_⟩
  · have := h1.1 (by norm_num)
    simpa using this
  · exact h2.2.1 (by norm_num)
  · exact h3.2.2 (by norm_num)

/-- Claim C3: a cautious-forward load at ptr with valid range [lo, hi),
lo = ptr and ptr < hi ≤ ptr + W, returns the source byte at ptr + k for
ptr + k < hi and zero for ptr + k ≥ hi; no byte before ptr contributes, in
that the result depends only on memory at addresses ≥ ptr. -/
theorem lv_cf_zero_fill (W : Nat)
    (hW : W = 1 ∨ W = 2 ∨ W = 4 ∨ W = 8 ∨ W = 16)
    (mem : Nat → Nat) (hmem : ∀ a, mem a < 256) (ptr lo hi k : Nat)
    (hlo : lo = ptr) (h1 : ptr < hi) (h2 : hi ≤ ptr + W) (hk : k < W) :
    (ptr + k < hi → byteOf (lv_cf W mem ptr lo hi) k = mem (ptr + k))
    ∧ (hi ≤ ptr + k → byteOf (lv_cf W mem ptr lo hi) k = 0)
    ∧ (∀ mem2 : Nat → Nat, (∀ a, ptr ≤ a → mem a = mem2 a) →
        lv_cf W mem ptr lo hi = lv_cf W mem2 ptr lo hi) := by
  have hlen : k < ((List.range W).map fun k =>
      if ptr + k < hi then mem (ptr + k) else 0).length := by
    simpa using hk
  have hbyte : byteOf (lv_cf W mem ptr lo hi) k
      = (if ptr + k < hi then mem (ptr + k) else 0) % 256 := by
    simp only [lv_cf]
    rw [byteOf_bytesToVal _ _ hlen]
    simp
  refine ⟨fun h => ?_, fun h => ?_, fun mem2 hmem2 => ?_⟩
  · rw [hbyte, if_pos h]
    exact Nat.mod_eq_of_lt (hmem _)
  · rw [hbyte, if_neg (by omega)]
  · simp only [lv_cf]
    congr 1
    apply List.map_congr_left
    intro a _
    rw [hmem2 (ptr + a) (Nat.le_add_right _ _)]

/-- Claim C3 witness: the cautious-forward theorem applied at W = 4, ptr = 10,
range [10, 12): byte 1 (address 11, below hi) reads the source byte, byte 2
(address 12, at hi) reads zero, and changing memory only below ptr leaves the
result unchanged. -/
theorem lv_cf_zero_fill_witness :
    byteOf (lv_cf 4 (fun a => a % 256) 10 10 12) 1 = 11
    ∧ byteOf (lv_cf 4 (fun a => a % 256) 10 10 12) 2 = 0
    ∧ lv_cf 4 (fun a => a % 256) 10 10 12
        = lv_cf 4 (fun a => if a < 10 then 7 else a % 256) 10 10 12 := by
  have hmem : ∀ a, a % 256 < 256 := fun a => Nat.mod_lt a (by norm_num)
  have h1 := lv_cf_zero_fill 4 (by norm_num) (fun a => a % 256) hmem 10 10 12 1
    rfl (by norm_num) (by norm_num) (by norm_num)
  have h2 := lv_cf_zero_fill 4 (by norm_num) (fun a => a % 256) hmem 10 10 12 2
    rfl (by norm_num) (by norm_num) (by norm_num)
  refine ⟨?_, ?_, ?_⟩
  · have := h1.1 (by norm_num)
    simpa using this
  · exact h2.2.1 (by norm_num)
  · refine h1.2.2 _ fun a ha => ?_
    simp [Nat.not_lt_of_le ha]

/-- Claim C4: a cautious-backward load at ptr with valid range [lo, hi),
hi = ptr + W and ptr ≤ lo < hi, returns zero for ptr + k < lo and the source
byte at ptr + k for lo ≤ ptr + k < hi. -/
theorem lv_cb_zero_fill (W : Nat)
    (hW : W = 1 ∨ W = 2 ∨ W = 4 ∨ W = 8 ∨ W = 16)
    (mem : Nat → Nat) (hmem : ∀ a, mem a < 256) (ptr lo hi k : Nat)
    (hhi : hi = ptr + W) (hl1 : ptr ≤ lo) (hl2 : lo < hi) (hk : k < W) :
    (ptr + k < lo → byteOf (lv_cb W mem ptr lo hi) k = 0)
    ∧ (lo ≤ ptr + k → ptr + k < hi →
        byteOf (lv_cb W mem ptr lo hi) k = mem (ptr + k)) := by
  have hlen : k < ((List.range W).map fun k =>
      if lo ≤ ptr + k then mem (ptr + k) else 0).length := by
    simpa using hk
  have hbyte : byteOf (lv_cb W mem ptr lo hi) k
      = (if lo ≤ ptr + k then mem (ptr + k) else 0) % 256 := by
    simp only [lv_cb]
    rw [byteOf_bytesToVal _ _ hlen]
    simp
  refine ⟨fun h => ?_, fun h h2 => ?_⟩
  · rw [hbyte, if_neg (by omega)]
  · rw [hbyte, if_pos h]
    exact Nat.mod_eq_of_lt (hmem _)

/-- Claim C4 witness: the cautious-backward theorem applied at W = 4, ptr = 20,
range [22, 24): byte 1 (address 21, before lo) reads zero and byte 2
(address 22, inside) reads the source byte. -/
theorem lv_cb_zero_fill_witness :
    byteOf (lv_cb 4 (fun a => a % 256) 20 22 24) 1 = 0
    ∧ byteOf (lv_cb 4 (fun a => a % 256) 20 22 24) 2 = 22 := by
  have hmem : ∀ a, a % 256 < 256 := fun a => Nat.mod_lt a (by norm_num)
  have h1 := lv_cb_zero_fill 4 (by norm_num) (fun a => a % 256) hmem 20 22 24 1
    rfl (by norm_num) (by norm_num) (by norm_num)
  have h2 := lv_cb_zero_fill 4 (by norm_num) (fun a => a % 256) hmem 20 22 24 2
    rfl (by norm_num) (by norm_num) (by norm_num)
  refine ⟨h1.1 (by norm_num), ?_⟩
  have := h2.2 (by norm_num) (by norm_num)
  simpa using this

/-- Claim C5: at every byte alignment of ptr (any offset i < 16 from a
16-aligned base), when the whole window [ptr, ptr + W) lies inside [lo, hi),
the normal load returns exactly the W source bytes. -/
theorem lv_normal_exact (W : Nat)
    (hW : W = 1 ∨ W = 2 ∨ W = 4 ∨ W = 8 ∨ W = 16)
    (mem : Nat → Nat) (hmem : ∀ a, mem a < 256) (base i lo hi k : Nat)
    (halign : base % 16 = 0) (hi16 : i < 16)
    (hlow : lo ≤ base + i) (hhigh : base + i + W ≤ hi) (hk : k < W) :
    byteOf (lv W mem (base + i) lo hi) k = mem (base + i + k) := by
  have hlen : k < ((List.range W).map fun k => mem (base + i + k)).length := by
    simpa using hk
  simp only [lv]
  rw [byteOf_bytesToVal _ _ hlen]
  simp only [List.getElem_map, List.getElem_range]
  exact Nat.mod_eq_of_lt (hmem _)

/-- Claim C5 witness: the normal-load theorem applied at W = 2, base = 16,
offset i = 3 (so ptr = 19), range [0, 100): byte 1 of the result is the
source byte at address 20. -/
theorem lv_normal_exact_witness :
    byteOf (lv 2 (fun a => a % 256) (16 + 3) 0 100) 1 = 20 := by
  have hmem : ∀ a, a % 256 < 256 := fun a => Nat.mod_lt a (by norm_num)
  have h := lv_normal_exact 2 (by norm_num) (fun a => a % 256) hmem 16 3 0 100 1
    (by norm_num) (by norm_num) (by norm_num) (by norm_num) (by norm_num)
  simpa using h

/-- Claim C6: for width 1 the aligned load is extensionally equal to the
normal load: the sources define the one-byte aligned load as a proxy that
calls the one-byte normal load. -/
theorem lv_u8_a_eq_lv_u8 (mem : Nat → Nat) (ptr lo hi : Nat) :
    lv_u8_a mem ptr lo hi = lv_u8 mem ptr lo hi := rfl

/-- Modelled from the spec: ROSE_BOUND_INF is defined in rose_graph.h, which is
not among the sources. It is the saturating infinity sentinel for u32 Rose
depth bounds: the largest representable u32 value, so that the sentinel is
representable and propagates through addition. -/
def ROSE_BOUND_INF : Nat := 2 ^ 32 - 1

/-- add_rose_depth from rose_build_util.h: adds two Rose depths with u32
arithmetic, the infinity sentinel propagating through addition. -/
def add_rose_depth (a b : Nat) : Nat :=
  if a = ROSE_BOUND_INF ∨ b = ROSE_BOUND_INF then ROSE_BOUND_INF
  else (a + b) % 2 ^ 32

/-- Claim C2 counterexample: at a = b = 4294967294, both finite (strictly below
the infinity sentinel), the u32 sum wraps around: the result is strictly
smaller than a and differs from the exact sum, refuting the claim that
add_rose_depth returns the exact sum, at least a and at least b, for all
finite inputs. -/
theorem add_rose_depth_overflow_cex :
    4294967294 ≠ ROSE_BOUND_INF
    ∧ add_rose_depth 4294967294 4294967294 < 4294967294
    ∧ add_rose_depth 4294967294 4294967294 ≠ 4294967294 + 4294967294 := by
  refine ⟨by decide, ?_, ?_⟩ <;>
    simp [add_rose_depth, ROSE_BOUND_INF]

/-- Claim C2 amended: the infinity sentinel propagates through addition, and
for finite a and b whose true sum stays below 2 ^ 32 (so that no u32 overflow
occurs, as the assertion in the code demands) the result is the exact sum,
which is at least a and at least b. -/
theorem add_rose_depth_spec (a b : Nat)
    (ha : a ≤ ROSE_BOUND_INF) (hb : b ≤ ROSE_BOUND_INF) :
    (a = ROSE_BOUND_INF ∨ b = ROSE_BOUND_INF →
      add_rose_depth a b = ROSE_BOUND_INF)
    ∧ (a ≠ ROSE_BOUND_INF → b ≠ ROSE_BOUND_INF → a + b < 2 ^ 32 →
      add_rose_depth a b = a + b
      ∧ a ≤ add_rose_depth a b ∧ b ≤ add_rose_depth a b) := by
  constructor
  · intro h
    simp [add_rose_depth, h]
  · intro hna hnb hsum
    have : add_rose_depth a b = a + b := by
      rw [add_rose_depth, if_neg (by tauto)]
      exact Nat.mod_eq_of_lt hsum
    exact ⟨this, by omega, by omega⟩

/-- Claim C2 amended witness: the theorem applied at a = 7, b = 5 (finite sum
12) and at a = ROSE_BOUND_INF, b = 5 (sentinel propagates). -/
theorem add_rose_depth_spec_witness :
    add_rose_depth 7 5 = 12
    ∧ add_rose_depth ROSE_BOUND_INF 5 = ROSE_BOUND_INF := by
  have h1 := add_rose_depth_spec 7 5 (by decide) (by decide)
  have h2 := add_rose_depth_spec ROSE_BOUND_INF 5 le_rfl (by decide)
  exact ⟨(h1.2 (by decide) (by decide) (by norm_num)).1, h2.1 (Or.inl rfl)⟩

/-- calcMinDepth from rose_build_util.h: fold over the vertex collection,
clamping each depth to 255 (the u8 cast of the minimum of 255 and the u32
depth, hence the reduction modulo 256), and keeping the minimum of those
clamped depths that exceed 1, starting from 255. Vertices are modelled as
naturals and the depth map as a total function, matching map entries present
for every vertex of the collection. -/
def calcMinDepth (depths : Nat → Nat) (verts : List Nat) : Nat :=
  verts.foldl (fun d v =>
    let vdepth := min 255 (depths v) % 256
    if 1 < vdepth then min d vdepth else d) 255

/-- Clamping to 255 already fits in a byte, so the u8 cast changes nothing. -/
theorem min255_mod (x : Nat) : min 255 x % 256 = min 255 x :=
  Nat.mod_eq_of_lt (by omega)

/-- The calcMinDepth step fold, from any accumulator, equals the plain minimum
fold over the clamped depths that exceed 1. -/
theorem calcMinDepth_foldl (depths : Nat → Nat) (verts : List Nat) (d : Nat) :
    verts.foldl (fun d v =>
        if 1 < min 255 (depths v) then min d (min 255 (depths v)) else d) d
      = ((verts.map fun v => min 255 (depths v)).filter
          fun x => decide (1 < x)).foldl min d := by
  induction verts generalizing d with
  | nil => rfl
  | cons v vs ih =>
    simp only [List.foldl_cons, List.map_cons, List.filter_cons]
    by_cases h : 1 < min 255 (depths v)
    · rw [if_pos h, if_pos (by simpa using h), List.foldl_cons]
      exact ih _
    · rw [if_neg h, if_neg (by simpa using h)]
      exact ih d

/-- A minimum fold starting above 1 over elements that are all above 1 stays
above 1. -/
theorem foldl_min_gt_one (l : List Nat) (d : Nat) (hd : 1 < d)
    (hl : ∀ x ∈ l, 1 < x) : 1 < l.foldl min d := by
  induction l generalizing d with
  | nil => simpa using hd
  | cons x xs ih =>
    simp only [List.foldl_cons]
    refine ih (min d x) ?_ fun y hy => hl y (by simp [hy])
    have := hl x (by simp)
    omega

/-- Claim C9: calcMinDepth returns the minimum, over the vertices whose
clamped depth min(depth(v), 255) is strictly greater than 1, of that clamped
depth, starting from 255 (so 255 when the collection is empty or every
clamped depth is at most 1), and the result is never 0 or 1. -/
theorem calcMinDepth_spec (depths : Nat → Nat) (verts : List Nat) :
    calcMinDepth depths verts
      = ((verts.map fun v => min 255 (depths v)).filter
          fun x => decide (1 < x)).foldl min 255
    ∧ 1 < calcMinDepth depths verts := by
  have h0 : calcMinDepth depths verts
      = verts.foldl (fun d v =>
          if 1 < min 255 (depths v) then min d (min 255 (depths v)) else d)
        255 := by
    refine List.foldl_ext _ _ 255 fun a b _ => ?_
    simp only [min255_mod]
  have h : calcMinDepth depths verts
      = ((verts.map fun v => min 255 (depths v)).filter
          fun x => decide (1 < x)).foldl min 255 :=
    h0.trans (calcMinDepth_foldl depths verts 255)
  refine ⟨h, ?_⟩
  rw [h]
  refine foldl_min_gt_one _ _ (by norm_num) fun x hx => ?_
  have := List.of_mem_filter hx
  simpa using this

/-- The hs_error_t status code for normal completion (hs_common.h). -/
def HS_SUCCESS : Int := 0

/-- The hs_error_t status code for an invalid parameter (hs_common.h). -/
def HS_INVALID : Int := -1

/-- The hs_error_t status code for a failed memory allocation (hs_common.h). -/
def HS_NOMEM : Int := -2

/-- The hs_error_t status code reporting that the engine was terminated by the
callback after a match was located (hs_common.h). -/
def HS_SCAN_TERMINATED : Int := -3

/-- The hs_error_t status code for a pattern-compiler failure (hs_common.h). -/
def HS_COMPILER_ERROR : Int := -4

/-- The hs_error_t status code for a database built for a different version
(hs_common.h). -/
def HS_DB_VERSION_ERROR : Int := -5

/-- The hs_error_t status code for a database built for a different platform
(hs_common.h). -/
def HS_DB_PLATFORM_ERROR : Int := -6

/-- The hs_error_t status code for a database built for a different mode of
operation (hs_common.h). -/
def HS_DB_MODE_ERROR : Int := -7

/-- The hs_error_t status code for an incorrectly aligned parameter
(hs_common.h). -/
def HS_BAD_ALIGN : Int := -8

/-- The hs_error_t status code for an allocator returning misaligned memory
(hs_common.h). -/
def HS_BAD_ALLOC : Int := -9

/-- The nine hs_error_t constants of hs_common.h, in declaration order. -/
def hsErrorValues : List Int :=
  [HS_SUCCESS, HS_INVALID, HS_NOMEM, HS_SCAN_TERMINATED, HS_COMPILER_ERROR,
   HS_DB_VERSION_ERROR, HS_DB_PLATFORM_ERROR, HS_DB_MODE_ERROR, HS_BAD_ALIGN,
   HS_BAD_ALLOC]

/-- Claim C8: the hs_error_t constants are pairwise distinct, so a
callback-requested early stop is distinguishable from success and from every
error condition. -/
theorem hs_error_codes_distinct :
    hsErrorValues.Pairwise (fun a b => a ≠ b)
    ∧ HS_SCAN_TERMINATED ≠ HS_SUCCESS
    ∧ ∀ e ∈ [HS_INVALID, HS_NOMEM, HS_COMPILER_ERROR, HS_DB_VERSION_ERROR,
        HS_DB_PLATFORM_ERROR, HS_DB_MODE_ERROR, HS_BAD_ALIGN, HS_BAD_ALLOC],
        HS_SCAN_TERMINATED ≠ e := by decide

/-- Modelled from the spec: the implementation of hs_free_database is not among
the sources, only its declaration in hs_common.h. Per that declaration, NULL
may be safely provided, in which case the function does nothing and returns
HS_SUCCESS, while a live database handle is released through the free
callback. A NULL database is the `none` argument, and the allocator state is
modelled as the list of live database handles. -/
def hs_free_database (db : Option Nat) (live : List Nat) : Int × List Nat :=
  match db with
  | none => (HS_SUCCESS, live)
  | some h => (HS_SUCCESS, live.filter fun x => decide (x ≠ h))

/-- Claim C10: hs_free_database accepts a NULL database pointer: nothing is
deallocated, the live-handle state is unchanged, and HS_SUCCESS is returned. -/
theorem hs_free_database_null (live : List Nat) :
    hs_free_database none live = (HS_SUCCESS, live) := rfl

/-- A repeat bound: a finite count or the distinguished infinity sentinel,
modelling the depth values used by the pure-repeat tests (util/depth.h is not
among the sources; the spec describes a maximum repeat count or a sentinel
infinite). -/
inductive Depth where
  | finite (n : Nat)
  | inf
deriving DecidableEq

/-- Addition of repeat bounds: the infinity sentinel propagates through
addition, finite bounds add exactly. -/
def addDepth : Depth → Depth → Depth
  | .finite a, .finite b => .finite (a + b)
  | _, _ => .inf

/-- The bound invariant of a repeat descriptor: the minimum is at most the
maximum whenever the maximum is finite. -/
def minLEmax : Depth → Depth → Bool
  | .finite a, .finite b => decide (a ≤ b)
  | _, .inf => true
  | .inf, .finite _ => false

/-- One row of the pureRepeatTests table of nfagraph_repeat.cpp: a pattern and
the minimum and maximum repeat bounds it must be recognized with. -/
structure PureRepeatTest where
  pattern : String
  minBound : Depth
  maxBound : Depth

/-- The pureRepeatTests table of nfagraph_repeat.cpp, row for row. -/
def pureRepeatTests : List PureRepeatTest := [
  ⟨"^.*", .finite 0, .inf⟩,
  ⟨"^.+", .finite 1, .inf⟩,
  ⟨"^.", .finite 1, .finite 1⟩,
  ⟨"^..", .finite 2, .finite 2⟩,
  ⟨"^.?.", .finite 1, .finite 2⟩,
  ⟨"^.\x7b1,2\x7d", .finite 1, .finite 2⟩,
  ⟨"^.\x7b1,3\x7d", .finite 1, .finite 3⟩,
  ⟨"^.\x7b1,10\x7d", .finite 1, .finite 10⟩,
  ⟨"^.\x7b1,200\x7d", .finite 1, .finite 200⟩,
  ⟨"^.\x7b200\x7d", .finite 200, .finite 200⟩,
  ⟨"^.\x7b0,\x7d", .finite 0, .inf⟩,
  ⟨"^.\x7b1,\x7d", .finite 1, .inf⟩,
  ⟨"^.\x7b2,\x7d", .finite 2, .inf⟩,
  ⟨"^.\x7b10,\x7d", .finite 10, .inf⟩,
  ⟨"^.\x7b200,\x7d", .finite 200, .inf⟩,
  ⟨"^.\x7b5000,\x7d", .finite 5000, .inf⟩,
  ⟨"^.\x7b0,1\x7d", .finite 0, .finite 1⟩,
  ⟨"^.\x7b0,2\x7d", .finite 0, .finite 2⟩,
  ⟨"^.\x7b0,100\x7d", .finite 0, .finite 100⟩,
  ⟨"^.\x7b0,5000\x7d", .finite 0, .finite 5000⟩,
  ⟨"^x\x7b10\x7dx\x7b20,30\x7d", .finite 30, .finite 40⟩,
  ⟨"^..?..?..?..?..?", .finite 5, .finite 10⟩]

/-- Modelled from the spec: the pattern-to-graph front end and the pure-repeat
recognizer isPureRepeat (nfagraph/ng_repeat.h) are not among the sources, only
their test table. Per the spec, a bounded repeat is a sub-pattern required to
match between min and max consecutive times; each anchored test pattern is a
concatenation of bounded repeats of a single-character element, transcribed
here as the ordered list of its (min, max) element bounds. -/
def patternElements : String → Option (List (Depth × Depth))
  | "^.*" => some [(.finite 0, .inf)]
  | "^.+" => some [(.finite 1, .inf)]
  | "^." => some [(.finite 1, .finite 1)]
  | "^.." => some [(.finite 1, .finite 1), (.finite 1, .finite 1)]
  | "^.?." => some [(.finite 0, .finite 1), (.finite 1, .finite 1)]
  | "^.\x7b1,2\x7d" => some [(.finite 1, .finite 2)]
  | "^.\x7b1,3\x7d" => some [(.finite 1, .finite 3)]
  | "^.\x7b1,10\x7d" => some [(.finite 1, .finite 10)]
  | "^.\x7b1,200\x7d" => some [(.finite 1, .finite 200)]
  | "^.\x7b200\x7d" => some [(.finite 200, .finite 200)]
  | "^.\x7b0,\x7d" => some [(.finite 0, .inf)]
  | "^.\x7b1,\x7d" => some [(.finite 1, .inf)]
  | "^.\x7b2,\x7d" => some [(.finite 2, .inf)]
  | "^.\x7b10,\x7d" => some [(.finite 10, .inf)]
  | "^.\x7b200,\x7d" => some [(.finite 200, .inf)]
  | "^.\x7b5000,\x7d" => some [(.finite 5000, .inf)]
  | "^.\x7b0,1\x7d" => some [(.finite 0, .finite 1)]
  | "^.\x7b0,2\x7d" => some [(.finite 0, .finite 2)]
  | "^.\x7b0,100\x7d" => some [(.finite 0, .finite 100)]
  | "^.\x7b0,5000\x7d" => some [(.finite 0, .finite 5000)]
  | "^x\x7b10\x7dx\x7b20,30\x7d" =>
      some [(.finite 10, .finite 10), (.finite 20, .finite 30)]
  | "^..?..?..?..?..?" =>
      some [(.finite 1, .finite 1), (.finite 0, .finite 1),
            (.finite 1, .finite 1), (.finite 0, .finite 1),
            (.finite 1, .finite 1), (.finite 0, .finite 1),
            (.finite 1, .finite 1), (.finite 0, .finite 1),
            (.finite 1, .finite 1), (.finite 0, .finite 1)]
  | _ => none

/-- Modelled from the spec: the bounds a pure-repeat pattern is recognized
with are the componentwise sums of its element bounds, the infinity sentinel
propagating through addition. -/
def pureRepeatBounds (es : List (Depth × Depth)) : Depth × Depth :=
  (es.foldl (fun s e => addDepth s e.1) (.finite 0),
   es.foldl (fun s e => addDepth s e.2) (.finite 0))

/-- Claim C7: every entry of the pureRepeatTests table is recognized with
exactly the listed minimum and maximum bounds, those bounds satisfy min ≤ max
whenever the maximum is finite, and the table exhibits a zero minimum, a
single allowed count (min = max, finite) and an infinite maximum sentinel. -/
theorem pureRepeatTests_check :
    (∀ t ∈ pureRepeatTests,
        (patternElements t.pattern).map pureRepeatBounds
          = some (t.minBound, t.maxBound)
        ∧ minLEmax t.minBound t.maxBound = true)
    ∧ (∃ t ∈ pureRepeatTests, t.minBound = Depth.finite 0)
    ∧ (∃ t ∈ pureRepeatTests,
        t.minBound = t.maxBound ∧ t.maxBound ≠ Depth.inf)
    ∧ (∃ t ∈ pureRepeatTests, t.maxBound = Depth.inf) := by decide

end Hyperscan
